import Mathlib

/-!
Verification of the AnalysisRun options builder in
`internal/rollouts/options.go` of the kargo repository.

The Go code is embedded shallowly:

* Go strings become `List Char`; Go's `len` is `List.length` and the slice
  `s[0:n]` is `List.take n`.
* A Go `map[string]string` becomes an association list (`GoMap`); a map
  variable that may be nil becomes `Option GoMap`, with `none` for nil.
* Each option variant of the Go interface `AnalysisRunOption` becomes a
  constructor of an inductive type, and the dynamic dispatch of
  `ApplyToAnalysisRun` becomes a `match`.
* The in-place mutation of the accumulator becomes explicit state passing:
  `applyToAnalysisRun` returns the updated record, and `Apply` is a left
  fold over the option list, exactly as the Go loop.

The Go field `NamePrefix`, the constant `maxNamePrefixLength` and the type
`WithNamePrefix` are rendered here as ` NamePfx`, `maxNamePfxLength` and
`withNamePfx`; all other names follow the source.
-/

/-- A Go string, as a list of characters. -/
abbrev GoString := List Char

/-- A non-nil Go `map[string]string`, as an association list read by
`mapGet`. -/
abbrev GoMap := List (GoString × GoString)

/-- Reading a key from a Go map: the first binding for the key, if any. -/
def mapGet (m : GoMap) (k : GoString) : Option GoString :=
  match m with
  | [] => none
  | (k', v) :: rest => if k' = k then some v else mapGet rest k

/-- Go map assignment `m[k] = v`: replace the first binding for `k` when one
exists, otherwise add a binding. -/
def mapSet (m : GoMap) (k v : GoString) : GoMap :=
  match m with
  | [] => [(k, v)]
  | (k', v') :: rest => if k' = k then (k, v) :: rest else (k', v') :: mapSet rest k v

/-- Go `maps.Copy(dst, src)`: every key/value pair of `src` is written into
`dst`; a nil `src` contributes nothing. -/
def mapsCopy (dst : GoMap) (src : Option GoMap) : GoMap :=
  match src with
  | none => dst
  | some s => s.foldl (fun d p => mapSet d p.1 p.2) dst

/-- Reading a key from a possibly-nil Go map: reading a nil map yields no
value. -/
def mapGetOpt (m : Option GoMap) (k : GoString) : Option GoString :=
  match m with
  | none => none
  | some m' => mapGet m' k

/-- The keys of a Go map, in binding order. -/
def mapKeys (m : GoMap) : List GoString := m.map Prod.fst

/-- `ulidLength`: the length of a `ulid.ULID` string. -/
def ulidLength : Nat := 26

/-- `maxNameSuffixLength`: the maximum length of the name suffix for an
AnalysisRun. -/
def maxNameSuffixLength : Nat := 7

/-- `maxNamePrefixLength` in the source: the maximum length of the name
prefix for an AnalysisRun, `253 - (1 + ulidLength) - (1 + maxNameSuffixLength)`. -/
def maxNamePfxLength : Nat := 253 - (1 + ulidLength) - (1 + maxNameSuffixLength)

/-- `types.NamespacedName` from `k8s.io/apimachinery`: a namespace/name
pair. -/
structure NamespacedName where
  Namespace : GoString
  Name : GoString
deriving DecidableEq, Repr

/-- `Owner`: a reference to an owner object. -/
structure Owner where
  APIVersion : GoString
  Kind : GoString
  Reference : NamespacedName
  BlockDeletion : Bool
deriving DecidableEq, Repr

/-- `AnalysisRunOptions`: the accumulator holding the options for building an
AnalysisRun. ` NamePfx` embeds the Go field `NamePrefix`; `ExtraLabels` is
`none` when the Go map is nil. -/
structure AnalysisRunOptions where
  NamePfx : GoString
  NameSuffix : GoString
  ExtraLabels : Option GoMap
  Owners : List Owner
deriving DecidableEq, Repr

/-- The zero value of `AnalysisRunOptions` in Go: empty strings, nil map,
nil slice. -/
def AnalysisRunOptions.zero : AnalysisRunOptions :=
  { NamePfx := [], NameSuffix := [], ExtraLabels := none, Owners := [] }

/-- The `AnalysisRunOption` interface, as the closed set of its four
implementations: `withNamePfx` embeds `WithNamePrefix`, `withNameSuffix`
embeds `WithNameSuffix`, `withExtraLabels` embeds `WithExtraLabels` (payload
`none` for a nil map), `withOwner` embeds `WithOwner`. -/
inductive AnalysisRunOption where
  | withNamePfx (s : GoString)
  | withNameSuffix (s : GoString)
  | withExtraLabels (m : Option GoMap)
  | withOwner (o : Owner)
deriving DecidableEq, Repr

/-- `ApplyToAnalysisRun` of each option variant, with the mutated accumulator
returned. `withNamePfx`/`withNameSuffix` truncate over-length input to the
leading `maxNamePfxLength`/`maxNameSuffixLength` characters and overwrite
the field; `withExtraLabels` copies into a non-nil `ExtraLabels` and
otherwise adopts the payload; `withOwner` appends to `Owners`. -/
def AnalysisRunOption.applyToAnalysisRun
    (o : AnalysisRunOption) (opts : AnalysisRunOptions) : AnalysisRunOptions :=
  match o with
  | .withNamePfx s =>
      let p := if s.length > maxNamePfxLength then s.take maxNamePfxLength else s
      { opts with NamePfx := p }
  | .withNameSuffix s =>
      let p := if s.length > maxNameSuffixLength then s.take maxNameSuffixLength else s
      { opts with NameSuffix := p }
  | .withExtraLabels m =>
      match opts.ExtraLabels with
      | some dst => { opts with ExtraLabels := some (mapsCopy dst m) }
      | none => { opts with ExtraLabels := m }
  | .withOwner ow =>
      { opts with Owners := opts.Owners ++ [ow] }

/-- `Apply`: fold the given options into the accumulator, in order. -/
def AnalysisRunOptions.apply
    (opts : AnalysisRunOptions) (l : List AnalysisRunOption) : AnalysisRunOptions :=
  l.foldl (fun acc o => o.applyToAnalysisRun acc) opts

/-- The owner payloads of an option list, in order. -/
def ownersOf (l : List AnalysisRunOption) : List Owner :=
  l.filterMap (fun o => match o with
    | .withOwner ow => some ow
    | _ => none)

/-- Whether an option is a `withOwner` option. -/
def isOwnerOpt (o : AnalysisRunOption) : Bool :=
  match o with
  | .withOwner _ => true
  | _ => false

/-! ### Lemmas about Go map reads and writes -/

lemma mapGet_mapSet_self (m : GoMap) (k v : GoString) :
    mapGet (mapSet m k v) k = some v := by
  induction m with
  | nil => simp [mapSet, mapGet]
  | cons p rest ih =>
      obtain ⟨k', v'⟩ := p
      by_cases h : k' = k
      · simp [mapSet, h, mapGet]
      · simp [mapSet, h, mapGet, ih]

lemma mapGet_mapSet_ne (m : GoMap) (k v k' : GoString) (h : k' ≠ k) :
    mapGet (mapSet m k v) k' = mapGet m k' := by
  induction m with
  | nil => simp [mapSet, mapGet, Ne.symm h]
  | cons p rest ih =>
      obtain ⟨k0, v0⟩ := p
      by_cases h0 : k0 = k
      · simp [mapSet, h0, mapGet, Ne.symm h]
      · simp only [mapSet, h0, if_false, mapGet]
        split <;> simp [ih]

lemma mapGet_eq_none_of_not_mem (m : GoMap) (k : GoString) (h : k ∉ mapKeys m) :
    mapGet m k = none := by
  induction m with
  | nil => simp [mapGet]
  | cons p rest ih =>
      obtain ⟨k0, v0⟩ := p
      simp only [mapKeys, List.map_cons, List.mem_cons, not_or] at h
      simp [mapGet, Ne.symm h.1, ih (by simpa [mapKeys] using h.2)]

lemma foldl_mapSet_get_none (s : GoMap) :
    ∀ (d : GoMap) (k : GoString), mapGet s k = none →
      mapGet (s.foldl (fun d p => mapSet d p.1 p.2) d) k = mapGet d k := by
  induction s with
  | nil => intro d k _; rfl
  | cons p rest ih =>
      intro d k h
      obtain ⟨k0, v0⟩ := p
      by_cases hk : k0 = k
      · simp [mapGet, hk] at h
      · simp only [mapGet, hk, if_false] at h
        simpa [List.foldl_cons, ih (mapSet d k0 v0) k h] using
          mapGet_mapSet_ne d k0 v0 k (Ne.symm hk)

lemma foldl_mapSet_get_some (s : GoMap) :
    ∀ (d : GoMap) (k v : GoString), (mapKeys s).Nodup → mapGet s k = some v →
      mapGet (s.foldl (fun d p => mapSet d p.1 p.2) d) k = some v := by
  induction s with
  | nil => intro d k v _ h; simp [mapGet] at h
  | cons p rest ih =>
      intro d k v hnd h
      obtain ⟨k0, v0⟩ := p
      simp only [mapKeys, List.map_cons, List.nodup_cons] at hnd
      by_cases hk : k0 = k
      · subst hk
        simp [mapGet] at h
        have hrest : mapGet rest k0 = none :=
          mapGet_eq_none_of_not_mem rest k0 (by simpa [mapKeys] using hnd.1)
        simp only [List.foldl_cons]
        rw [foldl_mapSet_get_none rest (mapSet d k0 v0) k0 hrest,
          mapGet_mapSet_self, h]
      · simp only [mapGet, hk, if_false] at h
        simpa [List.foldl_cons] using ih (mapSet d k0 v0) k v hnd.2 h

/-! ### Structural lemmas about option application -/

lemma AnalysisRunOptions.apply_nil (opts : AnalysisRunOptions) :
    opts.apply [] = opts := rfl

lemma AnalysisRunOptions.apply_cons (opts : AnalysisRunOptions)
    (o : AnalysisRunOption) (l : List AnalysisRunOption) :
    opts.apply (o :: l) = (o.applyToAnalysisRun opts).apply l := rfl

lemma AnalysisRunOptions.apply_append (opts : AnalysisRunOptions)
    (a b : List AnalysisRunOption) :
    opts.apply (a ++ b) = (opts.apply a).apply b := by
  simp [AnalysisRunOptions.apply, List.foldl_append]

lemma owners_applyToAnalysisRun (o : AnalysisRunOption) (opts : AnalysisRunOptions) :
    (o.applyToAnalysisRun opts).Owners = opts.Owners ++ ownersOf [o] := by
  cases o with
  | withNamePfx s => simp [AnalysisRunOption.applyToAnalysisRun, ownersOf]
  | withNameSuffix s => simp [AnalysisRunOption.applyToAnalysisRun, ownersOf]
  | withExtraLabels m =>
      cases hm : opts.ExtraLabels <;>
        simp [AnalysisRunOption.applyToAnalysisRun, ownersOf, hm]
  | withOwner ow => simp [AnalysisRunOption.applyToAnalysisRun, ownersOf]

lemma ownersOf_cons (o : AnalysisRunOption) (l : List AnalysisRunOption) :
    ownersOf (o :: l) = ownersOf [o] ++ ownersOf l := by
  cases o <;> simp [ownersOf]

lemma owners_apply (l : List AnalysisRunOption) :
    ∀ opts : AnalysisRunOptions, (opts.apply l).Owners = opts.Owners ++ ownersOf l := by
  induction l with
  | nil => intro opts; simp [AnalysisRunOptions.apply_nil, ownersOf]
  | cons o rest ih =>
      intro opts
      rw [AnalysisRunOptions.apply_cons, ih, owners_applyToAnalysisRun,
        List.append_assoc, ← ownersOf_cons]

lemma ownersOf_length (l : List AnalysisRunOption) :
    (ownersOf l).length = l.countP isOwnerOpt := by
  induction l with
  | nil => simp [ownersOf]
  | cons o rest ih =>
      rw [ownersOf_cons, List.length_append, ih, List.countP_cons]
      cases o <;> simp [ownersOf, isOwnerOpt]
      all_goals omega

lemma step_bounds (o : AnalysisRunOption) (opts : AnalysisRunOptions)
    (hp : opts.NamePfx.length ≤ maxNamePfxLength)
    (hs : opts.NameSuffix.length ≤ maxNameSuffixLength) :
    (o.applyToAnalysisRun opts).NamePfx.length ≤ maxNamePfxLength ∧
      (o.applyToAnalysisRun opts).NameSuffix.length ≤ maxNameSuffixLength := by
  cases o with
  | withNamePfx s =>
      by_cases h : s.length > maxNamePfxLength <;>
        simp [AnalysisRunOption.applyToAnalysisRun, h, List.length_take, hs]
      all_goals omega
  | withNameSuffix s =>
      by_cases h : s.length > maxNameSuffixLength <;>
        simp [AnalysisRunOption.applyToAnalysisRun, h, List.length_take, hp]
      all_goals omega
  | withExtraLabels m =>
      cases hm : opts.ExtraLabels <;>
        simp [AnalysisRunOption.applyToAnalysisRun, hm, hp, hs]
  | withOwner ow =>
      simp [AnalysisRunOption.applyToAnalysisRun, hp, hs]

lemma apply_bounds (l : List AnalysisRunOption) :
    ∀ opts : AnalysisRunOptions,
      opts.NamePfx.length ≤ maxNamePfxLength →
      opts.NameSuffix.length ≤ maxNameSuffixLength →
      (opts.apply l).NamePfx.length ≤ maxNamePfxLength ∧
        (opts.apply l).NameSuffix.length ≤ maxNameSuffixLength := by
  induction l with
  | nil => intro opts hp hs; exact ⟨hp, hs⟩
  | cons o rest ih =>
      intro opts hp hs
      rw [AnalysisRunOptions.apply_cons]
      have h := step_bounds o opts hp hs
      exact ih _ h.1 h.2

lemma extraLabels_isSome_step (o : AnalysisRunOption) (opts : AnalysisRunOptions)
    (h : opts.ExtraLabels.isSome = true) :
    ((o.applyToAnalysisRun opts).ExtraLabels).isSome = true := by
  cases o with
  | withExtraLabels m =>
      cases hm : opts.ExtraLabels with
      | none => rw [hm] at h; simp at h
      | some dst => simp [AnalysisRunOption.applyToAnalysisRun, hm]
  | withNamePfx s => simpa [AnalysisRunOption.applyToAnalysisRun] using h
  | withNameSuffix s => simpa [AnalysisRunOption.applyToAnalysisRun] using h
  | withOwner ow => simpa [AnalysisRunOption.applyToAnalysisRun] using h

lemma extraLabels_isSome_apply (l : List AnalysisRunOption) :
    ∀ opts : AnalysisRunOptions, opts.ExtraLabels.isSome = true →
      ((opts.apply l).ExtraLabels).isSome = true := by
  induction l with
  | nil => intro opts h; exact h
  | cons o rest ih =>
      intro opts h
      rw [AnalysisRunOptions.apply_cons]
      exact ih _ (extraLabels_isSome_step o opts h)

lemma extraLabels_isSome_after_some (m : GoMap) (opts : AnalysisRunOptions) :
    (((AnalysisRunOption.withExtraLabels (some m)).applyToAnalysisRun opts).ExtraLabels).isSome
      = true := by
  cases hm : opts.ExtraLabels <;> simp [AnalysisRunOption.applyToAnalysisRun, hm]

/-! ### Claims -/

/-- C1: after applying any sequence of options (via `Apply`) to a zero-valued
accumulator, `len(NamePrefix) + 1 + 26 + 1 + len(NameSuffix) ≤ 253` holds,
because the prefix is capped at `maxNamePrefixLength = 218` and the suffix at
`maxNameSuffixLength = 7`. -/
theorem C1_name_length_budget (l : List AnalysisRunOption) :
    maxNamePfxLength = 218 ∧ maxNameSuffixLength = 7 ∧
    (AnalysisRunOptions.zero.apply l).NamePfx.length + 1 + 26 + 1 +
      (AnalysisRunOptions.zero.apply l).NameSuffix.length ≤ 253 := by
  have h := apply_bounds l AnalysisRunOptions.zero
    (by simp [AnalysisRunOptions.zero]) (by simp [AnalysisRunOptions.zero])
  refine ⟨by decide, by decide, ?_⟩
  have h1 := h.1
  have h2 := h.2
  simp only [maxNamePfxLength, maxNameSuffixLength, ulidLength] at h1 h2
  omega

/-- C2: applying the name-prefix option with input of length at most
`maxNamePrefixLength = 218` sets the prefix field to exactly that string;
with longer input it sets the field to exactly the first 218 characters. -/
theorem C2_name_pfx_trunc (s : GoString) (opts : AnalysisRunOptions) :
    maxNamePfxLength = 218 ∧
    (s.length ≤ maxNamePfxLength →
      ((AnalysisRunOption.withNamePfx s).applyToAnalysisRun opts).NamePfx = s) ∧
    (maxNamePfxLength < s.length →
      ((AnalysisRunOption.withNamePfx s).applyToAnalysisRun opts).NamePfx =
        s.take maxNamePfxLength) := by
  refine ⟨by decide, fun h => ?_, fun h => ?_⟩
  · simp [AnalysisRunOption.applyToAnalysisRun, Nat.not_lt.mpr h]
  · simp [AnalysisRunOption.applyToAnalysisRun, h]

/-- C2 witness: 260 'x' characters are truncated to exactly 218 'x'
characters. -/
theorem C2_name_pfx_trunc_witness :
    ((AnalysisRunOption.withNamePfx (List.replicate 260 'x')).applyToAnalysisRun
        AnalysisRunOptions.zero).NamePfx = List.replicate 218 'x' := by
  have h := (C2_name_pfx_trunc (List.replicate 260 'x') AnalysisRunOptions.zero).2.2
    (by norm_num [maxNamePfxLength, ulidLength, maxNameSuffixLength])
  rw [h, List.take_replicate]
  norm_num [maxNamePfxLength, ulidLength, maxNameSuffixLength]

/-- C3: applying the name-suffix option with input of length at most
`maxNameSuffixLength = 7` sets the suffix field to exactly that string; with
longer input it sets the field to exactly the first 7 characters. -/
theorem C3_name_suffix_trunc (s : GoString) (opts : AnalysisRunOptions) :
    maxNameSuffixLength = 7 ∧
    (s.length ≤ maxNameSuffixLength →
      ((AnalysisRunOption.withNameSuffix s).applyToAnalysisRun opts).NameSuffix = s) ∧
    (maxNameSuffixLength < s.length →
      ((AnalysisRunOption.withNameSuffix s).applyToAnalysisRun opts).NameSuffix =
        s.take maxNameSuffixLength) := by
  refine ⟨by decide, fun h => ?_, fun h => ?_⟩
  · simp [AnalysisRunOption.applyToAnalysisRun, Nat.not_lt.mpr h]
  · simp [AnalysisRunOption.applyToAnalysisRun, h]

/-- C3 witness: the 8-character suffix "abcdef12" is truncated to
"abcdef1". -/
theorem C3_name_suffix_trunc_witness :
    ((AnalysisRunOption.withNameSuffix
        ['a', 'b', 'c', 'd', 'e', 'f', '1', '2']).applyToAnalysisRun
        AnalysisRunOptions.zero).NameSuffix = ['a', 'b', 'c', 'd', 'e', 'f', '1'] := by
  have h := (C3_name_suffix_trunc ['a', 'b', 'c', 'd', 'e', 'f', '1', '2']
    AnalysisRunOptions.zero).2.2 (by decide)
  rw [h]
  decide

/-- C4: applying `WithExtraLabels m1` then `WithExtraLabels m2` (to the zero
accumulator) yields a labels mapping in which every key of `m2` has `m2`'s
value, and every other key reads as in `m1` (so keys of `m1` absent from `m2`
keep `m1`'s value). -/
theorem C4_labels_merge (m1 m2 : GoMap) (hnd : (mapKeys m2).Nodup) :
    (∀ k v, mapGet m2 k = some v →
      mapGetOpt ((AnalysisRunOptions.zero.apply
        [AnalysisRunOption.withExtraLabels (some m1),
         AnalysisRunOption.withExtraLabels (some m2)]).ExtraLabels) k = some v) ∧
    (∀ k, mapGet m2 k = none →
      mapGetOpt ((AnalysisRunOptions.zero.apply
        [AnalysisRunOption.withExtraLabels (some m1),
         AnalysisRunOption.withExtraLabels (some m2)]).ExtraLabels) k
        = mapGet m1 k) := by
  have hres : (AnalysisRunOptions.zero.apply
      [AnalysisRunOption.withExtraLabels (some m1),
       AnalysisRunOption.withExtraLabels (some m2)]).ExtraLabels
      = some (mapsCopy m1 (some m2)) := rfl
  constructor
  · intro k v h
    rw [hres]
    simpa [mapGetOpt, mapsCopy] using foldl_mapSet_get_some m2 m1 k v hnd h
  · intro k h
    rw [hres]
    simpa [mapGetOpt, mapsCopy] using foldl_mapSet_get_none m2 m1 k h

/-- C4 witness: `WithExtraLabels {"a":"1"}` then `WithExtraLabels
{"a":"2","b":"3"}` yields "a" ↦ "2" and "b" ↦ "3". -/
theorem C4_labels_merge_witness :
    mapGetOpt ((AnalysisRunOptions.zero.apply
      [AnalysisRunOption.withExtraLabels (some [(['a'], ['1'])]),
       AnalysisRunOption.withExtraLabels
         (some [(['a'], ['2']), (['b'], ['3'])])]).ExtraLabels) ['a']
      = some ['2'] ∧
    mapGetOpt ((AnalysisRunOptions.zero.apply
      [AnalysisRunOption.withExtraLabels (some [(['a'], ['1'])]),
       AnalysisRunOption.withExtraLabels
         (some [(['a'], ['2']), (['b'], ['3'])])]).ExtraLabels) ['b']
      = some ['3'] := by
  have h := C4_labels_merge [(['a'], ['1'])] [(['a'], ['2']), (['b'], ['3'])]
    (by decide)
  exact ⟨h.1 ['a'] ['2'] (by decide), h.1 ['b'] ['3'] (by decide)⟩

/-- C5: after any sequence of options applied to the zero accumulator, the
`Owners` field is exactly the applied owner payloads in application order, its
length is the number of `WithOwner` options applied, and in particular
`WithOwner o1` then `WithOwner o2` yields `[o1, o2]` (no deduplication, even
when `o1 = o2`). -/
theorem C5_owners_accumulate (l : List AnalysisRunOption) :
    (AnalysisRunOptions.zero.apply l).Owners = ownersOf l ∧
    ((AnalysisRunOptions.zero.apply l).Owners).length = l.countP isOwnerOpt ∧
    ∀ o1 o2 : Owner,
      (AnalysisRunOptions.zero.apply
        [AnalysisRunOption.withOwner o1, AnalysisRunOption.withOwner o2]).Owners
        = [o1, o2] := by
  have h := owners_apply l AnalysisRunOptions.zero
  refine ⟨by simpa [AnalysisRunOptions.zero] using h, ?_, fun o1 o2 => rfl⟩
  rw [h]
  simp [AnalysisRunOptions.zero, ownersOf_length]

/-- C6 counterexample: the list `[WithExtraLabels(nil)]` contains a
`WithExtraLabels` option, yet after applying it to the zero accumulator the
`ExtraLabels` field is still the nil map, refuting the claim for nil
payloads. -/
theorem C6_labels_nil_counterexample :
    AnalysisRunOption.withExtraLabels none ∈
      [AnalysisRunOption.withExtraLabels none] ∧
    (AnalysisRunOptions.zero.apply
      [AnalysisRunOption.withExtraLabels none]).ExtraLabels = none :=
  ⟨List.mem_singleton.mpr rfl, rfl⟩

/-- C6 amended: after a `WithExtraLabels` option with a non-nil payload has
been applied at least once, in any position of any option sequence, the
accumulator's `ExtraLabels` field is never a nil mapping. -/
theorem C6_labels_not_nil_amended (l1 l2 : List AnalysisRunOption) (m : GoMap) :
    ((AnalysisRunOptions.zero.apply
      (l1 ++ AnalysisRunOption.withExtraLabels (some m) :: l2)).ExtraLabels).isSome
      = true := by
  rw [AnalysisRunOptions.apply_append, AnalysisRunOptions.apply_cons]
  exact extraLabels_isSome_apply l2 _ (extraLabels_isSome_after_some m _)

/-- C7: applying zero options leaves every field of the accumulator at its
zero state (empty strings, nil labels map, empty owner list); `Apply` with an
empty option list is the identity. -/
theorem C7_apply_empty_identity :
    (∀ opts : AnalysisRunOptions, opts.apply [] = opts) ∧
    (AnalysisRunOptions.zero.apply []).NamePfx = [] ∧
    (AnalysisRunOptions.zero.apply []).NameSuffix = [] ∧
    (AnalysisRunOptions.zero.apply []).ExtraLabels = none ∧
    (AnalysisRunOptions.zero.apply []).Owners = [] :=
  ⟨fun _ => rfl, rfl, rfl, rfl, rfl⟩

/-- C8: `Apply` applies options strictly in the given order (each step feeds
the next), and the last-applied prefix/suffix option wins: applying two
prefix options leaves exactly what the second alone would leave, and likewise
for suffix options. -/
theorem C8_in_order_last_wins (opts : AnalysisRunOptions) (p1 p2 s1 s2 : GoString) :
    (∀ (o : AnalysisRunOption) (l : List AnalysisRunOption),
        opts.apply (o :: l) = (o.applyToAnalysisRun opts).apply l) ∧
    (opts.apply [AnalysisRunOption.withNamePfx p1,
        AnalysisRunOption.withNamePfx p2]).NamePfx
      = (opts.apply [AnalysisRunOption.withNamePfx p2]).NamePfx ∧
    (opts.apply [AnalysisRunOption.withNameSuffix s1,
        AnalysisRunOption.withNameSuffix s2]).NameSuffix
      = (opts.apply [AnalysisRunOption.withNameSuffix s2]).NameSuffix :=
  ⟨fun _ _ => rfl, rfl, rfl⟩

/-- C9: each option variant mutates only its own field: the prefix option
leaves suffix/labels/owners unchanged, the suffix option leaves
prefix/labels/owners unchanged, the labels option leaves
prefix/suffix/owners unchanged, and the owner option leaves
prefix/suffix/labels unchanged. -/
theorem C9_frame (opts : AnalysisRunOptions) (s t : GoString)
    (m : Option GoMap) (ow : Owner) :
    (((AnalysisRunOption.withNamePfx s).applyToAnalysisRun opts).NameSuffix
        = opts.NameSuffix ∧
      ((AnalysisRunOption.withNamePfx s).applyToAnalysisRun opts).ExtraLabels
        = opts.ExtraLabels ∧
      ((AnalysisRunOption.withNamePfx s).applyToAnalysisRun opts).Owners
        = opts.Owners) ∧
    (((AnalysisRunOption.withNameSuffix t).applyToAnalysisRun opts).NamePfx
        = opts.NamePfx ∧
      ((AnalysisRunOption.withNameSuffix t).applyToAnalysisRun opts).ExtraLabels
        = opts.ExtraLabels ∧
      ((AnalysisRunOption.withNameSuffix t).applyToAnalysisRun opts).Owners
        = opts.Owners) ∧
    (((AnalysisRunOption.withExtraLabels m).applyToAnalysisRun opts).NamePfx
        = opts.NamePfx ∧
      ((AnalysisRunOption.withExtraLabels m).applyToAnalysisRun opts).NameSuffix
        = opts.NameSuffix ∧
      ((AnalysisRunOption.withExtraLabels m).applyToAnalysisRun opts).Owners
        = opts.Owners) ∧
    (((AnalysisRunOption.withOwner ow).applyToAnalysisRun opts).NamePfx
        = opts.NamePfx ∧
      ((AnalysisRunOption.withOwner ow).applyToAnalysisRun opts).NameSuffix
        = opts.NameSuffix ∧
      ((AnalysisRunOption.withOwner ow).applyToAnalysisRun opts).ExtraLabels
        = opts.ExtraLabels) := by
  obtain ⟨a, b, c, d⟩ := opts
  cases c <;>
    exact ⟨⟨rfl, rfl, rfl⟩, ⟨rfl, rfl, rfl⟩, ⟨rfl, rfl, rfl⟩, ⟨rfl, rfl, rfl⟩⟩

/-- C10: `Apply` composes over concatenation of option sequences, and is the
left fold of single-option application. -/
theorem C10_apply_append_foldl (opts : AnalysisRunOptions)
    (a b : List AnalysisRunOption) :
    opts.apply (a ++ b) = (opts.apply a).apply b ∧
    opts.apply a = a.foldl (fun acc o => o.applyToAnalysisRun acc) opts :=
  ⟨AnalysisRunOptions.apply_append opts a b, rfl⟩
